import Mathlib

/-!
Verification of the apidoc comment-block extraction and annotation
validation core.

Bytes are modelled as `Nat` (a Go `byte` holds 0..255; no arithmetic that
could overflow occurs in the modelled code).  Go slices `data[start:pos]`
become `(data.drop start).take (pos - start)`.

The lexer loops of `lang/block.go` are compiled to structurally recursive
functions over an explicit iteration budget (`fuel`).  Every loop in the
source advances the cursor by at least one byte per iteration, so a budget
of `data.length + 1` can never be exhausted before the loop returns; the
wrappers pass exactly that budget.  An exhausted budget yields `none`, the
same signal as an out-of-bounds read, and both are unreachable except where
the source itself indexes out of bounds (`endSComments`, see below).
-/

/-- UTF-8/ASCII bytes of a string literal (all literals used here are ASCII). -/
def bytes (s : String) : List Nat :=
  s.data.map Char.toNat

/-- Modelled from Go `unicode.IsSpace(rune(b))` for a byte `b`: the
whitespace code points below 256 are TAB, LF, VT, FF, CR, SPACE, NEL (0x85)
and NBSP (0xA0). -/
def isSpaceByte (b : Nat) : Bool :=
  b == 9 || b == 10 || b == 11 || b == 12 || b == 13 || b == 32 || b == 133 || b == 160

/-- The scan loop of `filterSymbols` (`lang/block.go`): `suffix` is the part
of `line` not yet examined (invariant: `suffix = line.drop index`), `index`
the current position, mirroring `for index, v := range line`.  The source's
`len(line) > index+1` lookahead guard is the non-empty-tail pattern: with a
one-byte suffix the marker branch falls through to `return line`. -/
def filterLoop (line cs : List Nat) : List Nat → Nat → List Nat
  | [], _ => line
  | v :: [], index =>
    if isSpaceByte v && v != 10 then
      filterLoop line cs [] (index + 1)
    else if !(cs.contains v) then
      line
    else line
  | v :: w :: rest, index =>
    if isSpaceByte v && v != 10 then
      filterLoop line cs (w :: rest) (index + 1)
    else if !(cs.contains v) then
      line
    else if isSpaceByte w then
      (if w == 10 then [10] else line.drop (index + 1))
    else line

/-- `filterSymbols(line, charset)` from `lang/block.go`: empty charset is the
identity; otherwise scan over leading non-newline whitespace, bail out
unchanged when the first non-space byte is not in the charset, and when it
is, act only if the next byte is whitespace: collapse to a lone newline, or
drop the prefix up to and including the marker (the following space byte
itself is kept: the code returns `line[index+1:]`). -/
def filterSymbols (line cs : List Nat) : List Nat :=
  if cs.isEmpty then line else filterLoop line cs line 0

/-- Lexer state: byte buffer plus cursor, as in `lang/lexer.go`. -/
structure Lexer where
  data : List Nat
  pos : Nat
deriving DecidableEq

/-- Modelled from the spec: `lexer.match(token)` (the lexer implementation is
not under src/) — true iff the bytes at the cursor equal the token; on
success the caller advances the cursor past the token. -/
def matchesAt (data : List Nat) (pos : Nat) (tok : List Nat) : Bool :=
  (data.drop pos).take tok.length == tok

/-- Modelled from the spec: `lexer.skipSpace()` advances over whitespace,
excluding newline.  `suffix` is `data.drop pos`. -/
def skipSpaceAux : List Nat → Nat → Nat
  | [], pos => pos
  | c :: rest, pos =>
    if isSpaceByte c && c != 10 then skipSpaceAux rest (pos + 1) else pos

/-- Cursor position after skipping non-newline whitespace from `pos`. -/
def skipSpace (data : List Nat) (pos : Nat) : Nat :=
  skipSpaceAux (data.drop pos) pos

/-- The inner line-reading loop of `endSComments`: starting at `pos` it
repeatedly executes `r := l.data[l.pos]; l.pos++`, stopping after the byte
that brings the cursor to EOF (second component `true`) or after a newline
(second component `false`); the first component is the new cursor.  `suffix`
is `data.drop pos`; an empty suffix means the source would index out of
bounds (`l.data[l.pos]` with `l.pos ≥ len(l.data)`), reported as `none`. -/
def readLineAux : List Nat → Nat → Nat → Option (Nat × Bool)
  | [], _, _ => none
  | r :: rest, pos, len =>
    if len ≤ pos + 1 then some (pos + 1, true)
    else if r == 10 then some (pos + 1, false)
    else readLineAux rest (pos + 1) len

/-- One execution of the line-reading loop of `endSComments` from `pos`. -/
def readLine (data : List Nat) (pos : Nat) : Option (Nat × Bool) :=
  readLineAux (data.drop pos) pos data.length

/-- The outer loop of `endSComments` (`lang/block.go`): read a line; at EOF
append it raw and stop; otherwise append it filtered, skip whitespace,
re-match `Begin` and either continue with the next line or stop.  Returns
the accumulated lines and the cursor before the final `l.pos--` give-back. -/
def endSCommentsLoop (bgn esc data : List Nat) : Nat → Nat → List (List Nat) → Option (List (List Nat) × Nat)
  | 0, _, _ => none
  | fuel + 1, pos, lines =>
    match readLine data pos with
    | none => none
    | some (pos1, eof) =>
      if eof then some (lines ++ [(data.drop pos).take (pos1 - pos)], pos1)
      else if matchesAt data (skipSpace data pos1) bgn then
        endSCommentsLoop bgn esc data fuel (skipSpace data pos1 + bgn.length)
          (lines ++ [filterSymbols ((data.drop pos).take (pos1 - pos)) esc])
      else some (lines ++ [filterSymbols ((data.drop pos).take (pos1 - pos)) esc],
        skipSpace data pos1)

/-- `endString` (`lang/block.go`): scan forward; at EOF return `(nil, false)`;
a non-empty `Escape` match consumes the escape token plus one byte; an `End`
match returns `(nil, true)`; otherwise advance one byte.  The first result
component models the Go content return value, which is `nil` in both
returns. -/
def endStringAux (esc endTk data : List Nat) : Nat → Nat → Option (List (List Nat) × Nat × Bool)
  | 0, _ => none
  | fuel + 1, pos =>
    if data.length ≤ pos then some ([], pos, false)
    else if !esc.isEmpty && matchesAt data pos esc then
      endStringAux esc endTk data fuel (pos + esc.length + 1)
    else if matchesAt data pos endTk then some ([], pos + endTk.length, true)
    else endStringAux esc endTk data fuel (pos + 1)

/-- `endMComments` (`lang/block.go`): scan to `End`, splitting at newlines
and filtering each chunk; a residual chunk before `End` is flushed only when
non-empty.  Reaching EOF first returns `some none`, modelling Go's
`return nil, false`: the accumulated lines are discarded. -/
def endMCommentsAux (endTk esc data : List Nat) : Nat → Nat → Nat → List (List Nat) → Option (Option (List (List Nat) × Nat))
  | 0, _, _, _ => none
  | fuel + 1, pos, start, lines =>
    if data.length ≤ pos then some none
    else if matchesAt data pos endTk then
      some (some
        ((if start < pos then
            lines ++ [filterSymbols ((data.drop start).take (pos - start)) esc]
          else lines),
         pos + endTk.length))
    else if data.getD pos 0 == 10 then
      endMCommentsAux endTk esc data fuel (pos + 1) (pos + 1)
        (lines ++ [filterSymbols ((data.drop start).take (pos + 1 - start)) esc])
    else endMCommentsAux endTk esc data fuel (pos + 1) start lines

/-- Block kinds of `lang/block.go` (`blockTypeString`, `blockTypeSComment`,
`blockTypeMComment`). -/
inductive BlockKind where
  | kString
  | kSComment
  | kMComment
deriving DecidableEq

/-- A language block rule (`block` in `lang/block.go`). -/
structure Block where
  kind : BlockKind
  Begin : List Nat
  End : List Nat
  Escape : List Nat

/-- `endSComments` as a method on a rule and a lexer: run the loop, then give
the last consumed byte back to the lexer (`l.pos--`) when at least one line
was read, and return `(lines, true)`. -/
def endSComments (b : Block) (l : Lexer) : Option (List (List Nat) × Bool × Lexer) :=
  match endSCommentsLoop b.Begin b.Escape l.data (l.data.length + 1) l.pos [] with
  | none => none
  | some (lines, pos) =>
    some (lines, true, ⟨l.data, if lines.isEmpty then pos else pos - 1⟩)

/-- `endString` as a method on a rule and a lexer. -/
def endString (b : Block) (l : Lexer) : Option (List (List Nat) × Bool × Lexer) :=
  match endStringAux b.Escape b.End l.data (l.data.length + 1) l.pos with
  | none => none
  | some (content, pos, ok) => some (content, ok, ⟨l.data, pos⟩)

/-- `endMComments` as a method on a rule and a lexer; `none` inside the
result is Go's `nil, false`. -/
def endMComments (b : Block) (l : Lexer) : Option (Option (List (List Nat) × Lexer)) :=
  match endMCommentsAux b.End b.Escape l.data (l.data.length + 1) l.pos l.pos [] with
  | none => none
  | some none => some none
  | some (some (lines, pos)) => some (some (lines, ⟨l.data, pos⟩))

example : filterSymbols (bytes "* x") (bytes "*") = bytes " x" := by decide
example : filterSymbols (bytes "*x") (bytes "*") = bytes "*x" := by decide
example : filterSymbols (bytes "  *\n") (bytes "*") = [10] := by decide
example : filterSymbols (bytes " - q") [] = bytes " - q" := by decide
example :
    endSComments ⟨.kSComment, bytes "//", [], bytes "*"⟩ ⟨bytes "//* a\n//* b\nx", 2⟩ =
      some ([bytes " a\n", bytes " b\n"], true, ⟨bytes "//* a\n//* b\nx", 11⟩) := by
  decide
example :
    endSComments ⟨.kSComment, bytes "//", [], bytes "*"⟩ ⟨bytes "//* a", 2⟩ =
      some ([bytes "* a"], true, ⟨bytes "//* a", 4⟩) := by
  decide
example : endSComments ⟨.kSComment, bytes "//", [], []⟩ ⟨bytes "//", 2⟩ = none := by decide
example :
    endString ⟨.kString, bytes "\"", bytes "\"", bytes "\\"⟩ ⟨bytes "a\\\"b\"c", 1⟩ =
      some ([], true, ⟨bytes "a\\\"b\"c", 5⟩) := by
  decide
example :
    endMComments ⟨.kMComment, bytes "/*", bytes "*/", bytes "*"⟩ ⟨bytes "/* a */x", 2⟩ =
      some (some ([bytes " a "], ⟨bytes "/* a */x", 7⟩)) := by
  decide
example :
    endMComments ⟨.kMComment, bytes "/*", bytes "*/", []⟩ ⟨bytes "/* a", 2⟩ =
      some none := by
  decide

/-!
Annotation parser dispatch (`input/input.go`, `parseBlock`) and the input
gate (`buildBlock`).
-/

/-- The byte prefix `"<apidoc"` recognizing a top-level metadata block. -/
def apidocBegin : List Nat := bytes "<apidoc"

/-- The byte prefix `"<api"` recognizing an API declaration block. -/
def apiBegin : List Nat := bytes "<api"

/-- The effect `parseBlock` has on the shared `Document`. -/
inductive BlockAction where
  | updateDoc
  | newAPI
  | noop
deriving DecidableEq

/-- `parseBlock` (`input/input.go`): classify the block by prefix (the
`<apidoc` case is tested before `<api`, which is its prefix); the second
component records whether the message handler is invoked — the source calls
`h.Error(message.Erro, message.WithError(block.File, "", block.Line, err))`
unconditionally after the switch, so it is `true` for every block, also when
no prefix matched and `err` is still nil. -/
def parseBlock (data : List Nat) : BlockAction × Bool :=
  (if apidocBegin.isPrefixOf data then .updateDoc
   else if apiBegin.isPrefixOf data then .newAPI
   else .noop,
   true)

/-- Error keys from `internal/locale` used by the modelled checks. -/
inductive ErrKey where
  | errRequired
  | errInvalidValue
  | errDuplicateValue
deriving DecidableEq

/-- A structured syntax error (`message.SyntaxError`): file, dotted field
path, line, message key. -/
structure DocError where
  file : String
  field : String
  line : Nat
  msg : ErrKey
deriving DecidableEq

/-- Modelled from the spec: `input.Options` and its `Sanitize` check are not
under src/; `buildBlock` only consumes the verdict of `Sanitize`, recorded
here as the error it returns, `none` meaning the option is valid. -/
structure Options where
  sanitizeErr : Option DocError

/-- The per-option loop of `buildBlock` (`input/input.go`): a nil option at
index `i` yields a required-error at field `opt[i]`, a failing sanitize check
yields its error with the field prefixed by `opt[i].`; a Go nil pointer is
modelled as `none`. -/
def checkOpts : List (Option Options) → Nat → Option DocError
  | [], _ => none
  | none :: _, i => some ⟨"", "opt[" ++ toString i ++ "]", 0, .errRequired⟩
  | some o :: rest, i =>
    match o.sanitizeErr with
    | some e => some ⟨e.file, "opt[" ++ toString i ++ "]." ++ e.field, e.line, e.msg⟩
    | none => checkOpts rest (i + 1)

/-- The configuration gate of `buildBlock` (`input/input.go`): an empty
option list is a required-error at field `opt`; otherwise each option is
checked in order; `none` means the gate passed and scanning may start. -/
def buildBlock (opt : List (Option Options)) : Option DocError :=
  if opt.isEmpty then some ⟨"", "opt", 0, .errRequired⟩
  else checkOpts opt 0

example : parseBlock (bytes "foo") = (.noop, true) := by decide
example : parseBlock (bytes "<apidoc x") = (.updateDoc, true) := by decide
example : parseBlock (bytes "<api m") = (.newAPI, true) := by decide
example : buildBlock [] = some ⟨"", "opt", 0, .errRequired⟩ := by decide
example : buildBlock [some ⟨none⟩, none] = some ⟨"", "opt[1]", 0, .errRequired⟩ := by decide
example : buildBlock [some ⟨some ⟨"", "dir", 0, .errRequired⟩⟩] =
    some ⟨"", "opt[0].dir", 0, .errRequired⟩ := by decide
example : buildBlock [some ⟨none⟩] = none := by decide

/-!
Domain model (`doc` package): Param trees, Enum values, Request and
Callback with their unmarshal-time structural checks.  The `Param`, `Enum`
and `Type` declarations and the duplicate-lookup helpers are not under
src/ and are modelled from the spec; the check sequences of
`Request.UnmarshalXML` and `Callback.UnmarshalXML` are translated from
src/ directly.
-/

/-- Modelled from the spec: the `doc.Type` enumeration
(None/Bool/Number/String/Object). -/
inductive ParamType where
  | tNone
  | tBool
  | tNumber
  | tString
  | tObject
deriving DecidableEq

/-- Modelled from the spec: `doc.Param` — name, type, Array flag and child
Items (non-empty iff the type is Object). -/
inductive Param where
  | mk (name : String) (ptype : ParamType) (array : Bool) (items : List Param)

/-- Field name of a `Param`. -/
def Param.name : Param → String
  | .mk n _ _ _ => n

/-- Declared type of a `Param`. -/
def Param.ptype : Param → ParamType
  | .mk _ t _ _ => t

/-- Array flag of a `Param`. -/
def Param.array : Param → Bool
  | .mk _ _ a _ => a

/-- Child items of a `Param`. -/
def Param.items : Param → List Param
  | .mk _ _ _ its => its

/-- Modelled from the spec: `doc.Enum`, keyed by its `value` attribute. -/
structure Enum where
  value : String

/-- `doc.Request` restricted to the fields its unmarshal checks read:
type, mimetype, enum list, items and Array flag. -/
structure Request where
  rtype : ParamType
  mimetype : String
  enums : List Enum
  items : List Param
  array : Bool

/-- `doc.Callback` restricted to the fields its unmarshal checks read,
plus the Responses list the claim mentions (it is deliberately not
checked: responses may be absent). -/
structure Callback where
  schema : String
  method : String
  requests : List Request
  responses : List Request

/-- First value occurring twice in a list, scanning left to right. -/
def firstDup : List String → Option String
  | [] => none
  | x :: rest => if rest.contains x then some x else firstDup rest

/-- Modelled from the spec: `getDuplicateEnum` — a duplicated enum value,
or `""` when all values are distinct (the empty-string verdict convention
is forced by the src/ caller, which tests the result against `""`). -/
def getDuplicateEnum (enums : List Enum) : String :=
  (firstDup (enums.map Enum.value)).getD ""

/-- Modelled from the spec: `getDuplicateItems` — a duplicated sibling
Param name, or `""` when all names are distinct. -/
def getDuplicateItems (items : List Param) : String :=
  (firstDup (items.map Param.name)).getD ""

/-- The post-decode check sequence of `Request.UnmarshalXML` (`doc`
package): type required, Object needs at least one item, mimetype
required, then duplicate enum values and duplicate item names, each
rejected with the field path of the offending declaration.  `startName` is
`start.Name.Local`. -/
def requestSanitize (startName : String) (r : Request) : Option DocError :=
  if r.rtype = .tNone then some ⟨"", "/" ++ startName ++ "#type", 0, .errRequired⟩
  else if r.rtype = .tObject ∧ r.items.isEmpty then
    some ⟨"", "/" ++ startName ++ "/item", 0, .errRequired⟩
  else if r.mimetype = "" then some ⟨"", "/" ++ startName ++ "#mimetype", 0, .errRequired⟩
  else if getDuplicateEnum r.enums ≠ "" then
    some ⟨"", "/" ++ startName ++ "/enum", 0, .errDuplicateValue⟩
  else if getDuplicateItems r.items ≠ "" then
    some ⟨"", "/" ++ startName ++ "/item", 0, .errDuplicateValue⟩
  else none

/-- `strings.ToUpper` restricted to ASCII, which is exact for comparisons
against the ASCII constants `"HTTP"`/`"HTTPS"` below (no byte outside
a–z maps into A–Z under the full Unicode table except U+017F, which no
claim exercises). -/
def goUpper (s : String) : String :=
  ⟨s.data.map Char.toUpper⟩

/-- The post-decode check sequence of `Callback.UnmarshalXML`
(`doc/callback.go` in src/): method required; upper-cased schema must be
`"HTTP"` or `"HTTPS"`; at least one request; responses are not checked. -/
def callbackSanitize (startName : String) (c : Callback) : Option DocError :=
  if c.method = "" then some ⟨"", "/" ++ startName ++ "#method", 0, .errRequired⟩
  else if goUpper c.schema ≠ "HTTP" ∧ goUpper c.schema ≠ "HTTPS" then
    some ⟨"", "/" ++ startName ++ "#schema", 0, .errInvalidValue⟩
  else if c.requests.isEmpty then some ⟨"", "/" ++ startName ++ "/request", 0, .errRequired⟩
  else none

example : callbackSanitize "cb" ⟨"hTtPs", "GET", [⟨.tString, "json", [], [], false⟩], []⟩ = none := by
  decide
example : callbackSanitize "cb" ⟨"ftp", "GET", [⟨.tString, "json", [], [], false⟩], []⟩ =
    some ⟨"", "/cb#schema", 0, .errInvalidValue⟩ := by decide
example : callbackSanitize "cb" ⟨"http", "", [], []⟩ =
    some ⟨"", "/cb#method", 0, .errRequired⟩ := by decide
example : callbackSanitize "cb" ⟨"http", "GET", [], []⟩ =
    some ⟨"", "/cb/request", 0, .errRequired⟩ := by decide
example : requestSanitize "request" ⟨.tString, "json", [⟨"a"⟩, ⟨"b"⟩, ⟨"a"⟩], [], false⟩ =
    some ⟨"", "/request/enum", 0, .errDuplicateValue⟩ := by decide
example : requestSanitize "request"
    ⟨.tObject, "json", [], [.mk "x" .tBool false [], .mk "x" .tNumber false []], false⟩ =
    some ⟨"", "/request/item", 0, .errDuplicateValue⟩ := by decide
example : requestSanitize "request" ⟨.tObject, "json", [], [.mk "x" .tBool false []], false⟩ =
    none := by decide

/-!
Example validator (`internal/mock`): schema-vs-JSON path lookup,
synthesis, and validation over Param trees.  `jsonValidator.find`,
`buildJSON` and `validJSON` are not under src/ (only their tests are);
they are modelled from the spec, pinned where the tests in src/ fix the
behaviour (sentinels 1024/"1024"/true, arrays of five elements, and an
empty-string path segment resolving to "not found").
-/

/-- A JSON value. -/
inductive JValue where
  | jnull
  | jbool (b : Bool)
  | jnum (n : Int)
  | jstr (s : String)
  | jarr (elems : List JValue)
  | jobj (fields : List (String × JValue))

/-- First declared item with the given field name (`find?` over items). -/
def findByName : List Param → String → Option Param
  | [], _ => none
  | it :: its, n => if it.name = n then some it else findByName its n

/-- Modelled from the spec: `jsonValidator.find` — resolve a sequence of
field-name segments from a root Param, descending through declared Items
(Array wrappers are transparent: the array flag is never consulted); an
empty path yields the root, a segment matching no declared item yields
`none`.  Pinned by `TestJSONValidator_find`, which requires the path
`[""]` to resolve to nothing. -/
def find : Param → List String → Option Param
  | p, [] => some p
  | p, n :: rest =>
    match findByName p.items n with
    | some it => find it rest
    | none => none

mutual

/-- Modelled from the spec: the synthesized value for a Param ignoring its
array flag — one fixed sentinel per primitive type (pinned by the mock
tests: `true`, `1024`, `"1024"`), and an object synthesizing each declared
item in declaration order. -/
def synthBase : Param → JValue
  | .mk _ t _ its =>
    match t with
    | .tNone => .jnull
    | .tBool => .jbool true
    | .tNumber => .jnum 1024
    | .tString => .jstr "1024"
    | .tObject => .jobj (synthFields its)

/-- Named fields synthesized for an object's items, in declaration order;
an array-flagged item is wrapped in a five-element JSON array of its base
value (pinned by the mock tests). -/
def synthFields : List Param → List (String × JValue)
  | [] => []
  | p :: ps =>
    (p.name, if p.array then .jarr (List.replicate 5 (synthBase p)) else synthBase p)
      :: synthFields ps

end

/-- Modelled from the spec: `buildJSON` — the representative JSON value of
a Param tree: the base value, wrapped in a five-element array when the
array flag is set. -/
def synthesize (p : Param) : JValue :=
  if p.array then .jarr (List.replicate 5 (synthBase p)) else synthBase p

mutual

/-- Modelled from the spec: validation of a JSON value against a Param
whose array flag is cleared (or ignored): primitives must match the
declared type exactly; an object value is checked field by field against
the declared items. -/
def validBase : Param → JValue → Bool
  | .mk _ t _ its, v =>
    match t, v with
    | .tNone, .jnull => true
    | .tBool, .jbool _ => true
    | .tNumber, .jnum _ => true
    | .tString, .jstr _ => true
    | .tObject, .jobj fs => validFields its fs
    | _, _ => false

/-- Field-wise object validation: a JSON field with no matching declared
item is an error ("unknown field"); declared items missing from the JSON
object are tolerated; a field of an array-flagged item must be a JSON
array whose every element satisfies the item with the array flag
cleared. -/
def validFields : List Param → List (String × JValue) → Bool
  | _, [] => true
  | its, (n, fv) :: rest =>
    (match findByName its n with
     | some it =>
       if it.array then
         match fv with
         | .jarr xs => validElems it xs
         | _ => false
       else validBase it fv
     | none => false)
    && validFields its rest

/-- Every element of a JSON array must satisfy the element Param with the
array flag cleared. -/
def validElems : Param → List JValue → Bool
  | _, [] => true
  | it, x :: xs => validBase it x && validElems it xs

end

/-- Modelled from the spec: `validJSON` — an array-flagged Param requires
a JSON array whose elements each satisfy the Param with the array flag
cleared; otherwise the base validation applies. -/
def validate (p : Param) (v : JValue) : Bool :=
  if p.array then
    match v with
    | .jarr xs => validElems p xs
    | _ => false
  else validBase p v

/-- The per-field check of `validFields`, split out for reasoning; it is
the inline match of `validFields` by definition. -/
def validField (its : List Param) (n : String) (fv : JValue) : Bool :=
  match findByName its n with
  | some it =>
    if it.array then
      match fv with
      | .jarr xs => validElems it xs
      | _ => false
    else validBase it fv
  | none => false

/-- Any value occurring twice in the list? -/
def hasDup : List String → Bool
  | [] => false
  | x :: rest => rest.contains x || hasDup rest

mutual

/-- A well-formed Param tree per the spec invariants: items are non-empty
iff the type is Object, sibling item names are distinct, and every child
is itself well-formed. -/
def wellFormed : Param → Bool
  | .mk _ t _ its =>
    ((t = ParamType.tObject) = (its.isEmpty = false) : Bool)
      && !(hasDup (its.map Param.name))
      && allWF its

/-- Every Param in the list is well-formed. -/
def allWF : List Param → Bool
  | [] => true
  | p :: ps => wellFormed p && allWF ps

end

/-- The Param tree of the deepest entry of `jsonTestData`
(`TestJSONValidator_find` in src/): an object with a string `name`, a
numeric `id`, and an object `group` holding `name`, `id` and an
array-flagged object `tags` of `name`/`id` pairs; the root is the
`ToParam` conversion of that Request. -/
def testRoot : Param :=
  .mk "" .tObject false
    [.mk "name" .tString false [],
     .mk "id" .tNumber false [],
     .mk "group" .tObject false
       [.mk "name" .tString false [],
        .mk "id" .tNumber false [],
        .mk "tags" .tObject true
          [.mk "name" .tString false [],
           .mk "id" .tNumber false []]]]

example : find testRoot [] = some testRoot := rfl
example : (find testRoot [""]).isNone = true := by decide
example : (find testRoot ["name"]).map Param.ptype = some .tString := by decide
example : (find testRoot ["not-exists"]).isNone = true := by decide
example : (find testRoot ["group", "id"]).map Param.ptype = some .tNumber := by decide
example : (find testRoot ["group", "tags", "id"]).map Param.ptype = some .tNumber := by decide
example : wellFormed testRoot = true := by decide
example : validate testRoot (synthesize testRoot) = true := by decide
example : validate (.mk "" .tNumber false []) (.jstr "x") = false := by decide
example : validate (.mk "" .tBool true []) (.jarr [.jbool true, .jbool false]) = true := by decide
example : validate (.mk "" .tObject false [.mk "id" .tNumber false []])
    (.jobj [("other", .jnum 1)]) = false := by decide
example : validate (.mk "" .tObject false [.mk "id" .tNumber false []])
    (.jobj []) = true := by decide

/-!
Supporting lemmas.
-/

theorem findByName_eq_none (l : List Param) (n : String)
    (h : ∀ it ∈ l, it.name ≠ n) : findByName l n = none := by
  induction l with
  | nil => rfl
  | cons it its ih =>
    rw [findByName]
    rw [if_neg (h it (List.mem_cons_self it its))]
    exact ih fun x hx => h x (List.mem_cons_of_mem it hx)

theorem checkOpts_eq_none_iff (l : List (Option Options)) (i : Nat) :
    checkOpts l i = none ↔ ∀ x ∈ l, ∃ o, x = some o ∧ o.sanitizeErr = none := by
  induction l generalizing i with
  | nil => simp [checkOpts]
  | cons hd tl ih =>
    cases hd with
    | none => simp [checkOpts]
    | some o =>
      cases h : o.sanitizeErr with
      | some e => simp [checkOpts, h]
      | none =>
        rw [checkOpts, h]
        rw [ih (i + 1)]
        constructor
        · intro hall x hx
          cases hx with
          | head => exact ⟨o, rfl, h⟩
          | tail _ hx2 => exact hall x hx2
        · intro hall x hx
          exact hall x (List.mem_cons_of_mem _ hx)

/-!
Claim theorems.
-/

/-- Claim C3 (code_bug evidence): for a block whose content starts with
neither `<apidoc` nor `<api`, `parseBlock` leaves the Document untouched
(no `FromXML` branch is taken), but the message handler is still invoked:
the source calls `h.Error` unconditionally after the prefix switch, so the
second component is `true` for every block — the claim's "no error is
reported to the handler" does not hold on the code. -/
theorem parseBlock_unconditional_report :
    (∀ data, (parseBlock data).2 = true) ∧
      parseBlock (bytes "foo") = (.noop, true) :=
  ⟨fun _ => rfl, by decide⟩

/-- Claim C4 (counterexample): the path `[""]`, whose segments are all
empty strings, does not resolve to the tree root — `TestJSONValidator_find`
requires it to resolve to nothing, and the modelled lookup returns `none`
because no declared item of the root is named `""`. -/
theorem find_empty_segment_not_root : find testRoot [""] ≠ some testRoot := by
  intro h
  exact Option.noConfusion ((rfl : find testRoot [""] = none) ▸ h)

/-- Claim C4 (amended): path lookup resolves the zero-length path to the
root; a path whose first segment names no declared item (an empty-string
segment included) yields "not found"; lookup passes transparently through
Array wrappers and arbitrarily deep Object nesting (the `tags` hop of the
test tree is an array-flagged object). -/
theorem find_path_lookup :
    (∀ p, find p [] = some p) ∧
      (∀ p n rest, (∀ it ∈ p.items, it.name ≠ n) → find p (n :: rest) = none) ∧
      (find testRoot ["group", "tags", "id"]).map Param.ptype = some .tNumber ∧
      (find testRoot [""]).isNone = true := by
  refine ⟨fun p => rfl, fun p n rest h => ?_, by decide, by decide⟩
  rw [find, findByName_eq_none p.items n h]

/-- Claim C4 witness: the amended theorem applied at the test tree and a
segment naming no declared item. -/
theorem find_path_lookup_witness : find testRoot ["color"] = none :=
  find_path_lookup.2.1 testRoot "color" [] (by decide)

/-- Claim C5: `Callback.UnmarshalXML` accepts exactly the callbacks with a
non-empty method, an upper-cased schema equal to `"HTTP"` or `"HTTPS"`
(so the check is case-insensitive), and at least one request; the
responses list is never consulted. -/
theorem callbackSanitize_accepts_iff (sn : String) (c : Callback) :
    callbackSanitize sn c = none ↔
      (c.method ≠ "" ∧ (goUpper c.schema = "HTTP" ∨ goUpper c.schema = "HTTPS") ∧
        c.requests ≠ []) := by
  rw [callbackSanitize]
  split_ifs with h1 h2 h3
  · simp [h1]
  · simp [h2.1, h2.2]
  · rw [List.isEmpty_iff] at h3
    simp [h3]
  · rw [not_and_or, not_not, not_not] at h2
    rw [List.isEmpty_iff] at h3
    simp [h1, h2, h3]

/-- Claim C5 witness: a callback in mixed case with one request is
accepted. -/
theorem callbackSanitize_accepts_iff_witness :
    callbackSanitize "callback"
      ⟨"hTtPs", "GET", [⟨.tString, "json", [], [], false⟩], []⟩ = none :=
  (callbackSanitize_accepts_iff "callback" _).mpr
    ⟨by decide, Or.inr (by decide), by simp⟩

/-- Claim C8: `buildBlock` passes its configuration gate — returning no
error, so that scanning may start — exactly when the option list is
non-empty and every entry is a non-nil option whose own sanitize check
succeeds; any empty, nil-containing or failing configuration is rejected
before any block is produced. -/
theorem buildBlock_gate (opt : List (Option Options)) :
    buildBlock opt = none ↔
      (opt ≠ [] ∧ ∀ x ∈ opt, ∃ o, x = some o ∧ o.sanitizeErr = none) := by
  rw [buildBlock]
  split_ifs with h
  · rw [List.isEmpty_iff] at h
    simp [h]
  · rw [List.isEmpty_iff] at h
    rw [checkOpts_eq_none_iff]
    simp [h]

/-- Claim C8 witness: a single valid option passes the gate. -/
theorem buildBlock_gate_witness : buildBlock [some ⟨none⟩] = none :=
  (buildBlock_gate [some ⟨none⟩]).mpr ⟨by simp, by simp⟩

/-- Claim C10: the single-line-comment `EndFunc` reads `l.data[l.pos]`
before checking `atEOF`, so its in-bounds precondition is violated on a
reachable input: in the file `"//"` the Begin token matches at offset 0
and leaves the cursor at the end of the buffer, and the total embedding of
`endSComments` takes the error branch of the index operation (`none`). -/
theorem endSComments_oob_reachable :
    matchesAt (bytes "//") 0 (bytes "//") = true ∧
      endSComments ⟨.kSComment, bytes "//", [], []⟩ ⟨bytes "//", 2⟩ = none :=
  ⟨by decide, by decide⟩

theorem firstDup_eq_none_iff (l : List String) : firstDup l = none ↔ l.Nodup := by
  induction l with
  | nil => simp [firstDup]
  | cons x rest ih =>
    rw [firstDup]
    by_cases h : x ∈ rest
    · rw [if_pos (by simpa using h)]
      simp [h]
    · rw [if_neg (by simpa using h)]
      rw [ih]
      simp [h, List.nodup_cons]

theorem firstDup_mem (l : List String) (x : String) (h : firstDup l = some x) : x ∈ l := by
  induction l with
  | nil => exact absurd h (by simp [firstDup])
  | cons y rest ih =>
    rw [firstDup] at h
    by_cases hc : rest.contains y
    · rw [if_pos hc] at h
      rw [Option.some_inj] at h
      exact h ▸ List.mem_cons_self y rest
    · rw [if_neg hc] at h
      exact List.mem_cons_of_mem y (ih h)

theorem firstDup_getD_ne (l : List String) (h1 : ¬l.Nodup) (h2 : "" ∉ l) :
    (firstDup l).getD "" ≠ "" := by
  have hn : firstDup l ≠ none := fun he => h1 ((firstDup_eq_none_iff l).mp he)
  obtain ⟨x, hx⟩ := Option.ne_none_iff_exists'.mp hn
  rw [hx, Option.getD_some]
  exact fun he => h2 (he ▸ firstDup_mem l x hx)

theorem firstDup_getD_eq (l : List String) (h : l.Nodup) : (firstDup l).getD "" = "" := by
  rw [(firstDup_eq_none_iff l).mpr h, Option.getD_none]

/-- Claim C6: `Request.UnmarshalXML` rejects duplicate enum values with a
SyntaxError at `/<decl>/enum` and duplicate sibling item names with a
SyntaxError at `/<decl>/item` (once the earlier type/item/mimetype checks
pass), and never reports a duplication error when enum values and item
names are all distinct.  The duplicate-lookup helpers signal through an
empty string, the convention the src/ caller tests against, so the
degenerate duplicated empty-string value/name is excluded by
hypothesis. -/
theorem requestSanitize_duplicates (sn : String) (r : Request) :
    (¬(r.enums.map Enum.value).Nodup → "" ∉ r.enums.map Enum.value →
      r.rtype ≠ .tNone → ¬(r.rtype = .tObject ∧ r.items = []) → r.mimetype ≠ "" →
        requestSanitize sn r = some ⟨"", "/" ++ sn ++ "/enum", 0, .errDuplicateValue⟩) ∧
    ((r.enums.map Enum.value).Nodup → ¬(r.items.map Param.name).Nodup →
      "" ∉ r.items.map Param.name →
      r.rtype ≠ .tNone → ¬(r.rtype = .tObject ∧ r.items = []) → r.mimetype ≠ "" →
        requestSanitize sn r = some ⟨"", "/" ++ sn ++ "/item", 0, .errDuplicateValue⟩) ∧
    ((r.enums.map Enum.value).Nodup → (r.items.map Param.name).Nodup →
      ∀ e, requestSanitize sn r = some e → e.msg ≠ .errDuplicateValue) := by
  refine ⟨fun hdup hne h1 h2 h3 => ?_, fun hen hdup hni h1 h2 h3 => ?_, fun hen hit e => ?_⟩
  · rw [requestSanitize]
    simp only [getDuplicateEnum]
    rw [if_neg h1, if_neg (fun hc => h2 ⟨hc.1, List.isEmpty_iff.mp hc.2⟩), if_neg h3,
      if_pos (firstDup_getD_ne _ hdup hne)]
  · rw [requestSanitize]
    simp only [getDuplicateEnum, getDuplicateItems]
    rw [if_neg h1, if_neg (fun hc => h2 ⟨hc.1, List.isEmpty_iff.mp hc.2⟩), if_neg h3,
      if_neg (fun hc => hc (firstDup_getD_eq _ hen)),
      if_pos (firstDup_getD_ne _ hdup hni)]
  · rw [requestSanitize]
    simp only [getDuplicateEnum, getDuplicateItems]
    simp only [firstDup_getD_eq _ hen, firstDup_getD_eq _ hit, ne_eq,
      eq_self_iff_true, not_true, if_false]
    split_ifs with h1 h2 h3
    · intro he
      rw [Option.some_inj] at he
      rw [← he]
      exact fun hc => ErrKey.noConfusion hc
    · intro he
      rw [Option.some_inj] at he
      rw [← he]
      exact fun hc => ErrKey.noConfusion hc
    · intro he
      rw [Option.some_inj] at he
      rw [← he]
      exact fun hc => ErrKey.noConfusion hc
    · intro he
      exact he.elim

/-- Claim C6 witness: a request with a duplicated enum value `"a"` is
rejected at `/request/enum`. -/
theorem requestSanitize_duplicates_witness :
    requestSanitize "request" ⟨.tString, "json", [⟨"a"⟩, ⟨"b"⟩, ⟨"a"⟩], [], false⟩ =
      some ⟨"", "/request/enum", 0, .errDuplicateValue⟩ :=
  (requestSanitize_duplicates "request" _).1 (by decide) (by decide) (by decide)
    (by simp) (by decide)

theorem allWF_mem {its : List Param} (h : allWF its = true) {it : Param}
    (hit : it ∈ its) : wellFormed it = true := by
  induction its with
  | nil => cases hit
  | cons p ps ih =>
    rw [allWF, Bool.and_eq_true] at h
    cases hit with
    | head => exact h.1
    | tail _ hx => exact ih h.2 hx

theorem findByName_self (l : List Param) (it : Param)
    (hd : hasDup (l.map Param.name) = false) (hit : it ∈ l) :
    findByName l it.name = some it := by
  induction l with
  | nil => cases hit
  | cons a rest ih =>
    rw [List.map_cons, hasDup, Bool.or_eq_false_iff] at hd
    cases hit with
    | head => rw [findByName, if_pos rfl]
    | tail _ hx =>
      have hne : ¬(a.name = it.name) := by
        intro heq
        have hmem : it.name ∈ rest.map Param.name := List.mem_map_of_mem _ hx
        rw [← heq] at hmem
        have hc : (rest.map Param.name).contains a.name = true := by simpa using hmem
        rw [hd.1] at hc
        exact Bool.noConfusion hc
      rw [findByName, if_neg hne]
      exact ih hd.2 hx

theorem validElems_replicate (it : Param) (s : JValue)
    (h : validBase it s = true) : ∀ k, validElems it (List.replicate k s) = true := by
  intro k
  induction k with
  | zero => rfl
  | succ k ih => simp [List.replicate_succ, validElems, h, ih]

theorem validFields_cons (its : List Param) (n : String) (fv : JValue)
    (rest : List (String × JValue)) :
    validFields its ((n, fv) :: rest) = (validField its n fv && validFields its rest) := by
  rw [validFields, validField]

theorem synthFields_cons (p : Param) (ps : List Param) :
    synthFields (p :: ps) =
      (p.name, if p.array then .jarr (List.replicate 5 (synthBase p)) else synthBase p)
        :: synthFields ps := by
  rw [synthFields]

theorem validFields_synthFields (full : List Param) : ∀ (its : List Param),
    (∀ it ∈ its, validBase it (synthBase it) = true) →
    (∀ it ∈ its, findByName full it.name = some it) →
    validFields full (synthFields its) = true := by
  intro its
  induction its with
  | nil => intro _ _; rfl
  | cons p ps ih =>
    intro h1 h2
    rw [synthFields_cons, validFields_cons, Bool.and_eq_true]
    refine ⟨?_, ih (fun it ht => h1 it (List.mem_cons_of_mem p ht))
      (fun it ht => h2 it (List.mem_cons_of_mem p ht))⟩
    rw [validField, h2 p (List.mem_cons_self p ps)]
    cases hp : p.array with
    | true =>
      simp only [hp, if_true]
      exact validElems_replicate p (synthBase p) (h1 p (List.mem_cons_self p ps)) 5
    | false =>
      simp only [hp, Bool.false_eq_true, if_false]
      exact h1 p (List.mem_cons_self p ps)

theorem validBase_synthBase : ∀ (n : Nat) (p : Param), sizeOf p ≤ n →
    wellFormed p = true → validBase p (synthBase p) = true := by
  intro n
  induction n with
  | zero =>
    intro p hp _
    cases p with
    | mk nm t arr its =>
      rw [Param.mk.sizeOf_spec] at hp
      omega
  | succ n ih =>
    intro p hp hwf
    cases p with
    | mk nm t arr its =>
      cases t with
      | tNone => rfl
      | tBool => rfl
      | tNumber => rfl
      | tString => rfl
      | tObject =>
        rw [wellFormed, Bool.and_eq_true, Bool.and_eq_true] at hwf
        have hnames : hasDup (its.map Param.name) = false := by
          simpa using hwf.1.2
        have hall : allWF its = true := hwf.2
        show validFields its (synthFields its) = true
        apply validFields_synthFields its its
        · intro it hit
          apply ih it _ (allWF_mem hall hit)
          have h1 := List.sizeOf_lt_of_mem hit
          rw [Param.mk.sizeOf_spec] at hp
          omega
        · intro it hit
          exact findByName_self its it hnames hit

/-- Claim C9: round-trip between synthesis and validation — for every
well-formed Param tree (items non-empty iff the type is Object, distinct
sibling names, including nested Object and Array combinations), validating
the tree against the JSON value synthesized from that same tree succeeds
with no error. -/
theorem validate_synthesize_roundtrip (p : Param) (h : wellFormed p = true) :
    validate p (synthesize p) = true := by
  have hbase := validBase_synthBase (sizeOf p) p le_rfl h
  cases hp : p.array with
  | true =>
    have hs : synthesize p = .jarr (List.replicate 5 (synthBase p)) := by
      rw [synthesize, if_pos hp]
    rw [hs]
    unfold validate
    rw [if_pos hp]
    exact validElems_replicate p (synthBase p) hbase 5
  | false =>
    have hs : synthesize p = synthBase p := by
      rw [synthesize, if_neg (by simp [hp])]
    rw [hs]
    unfold validate
    rw [if_neg (by simp [hp])]
    exact hbase

/-- Claim C9 witness: the round-trip theorem applied to the nested
object/array test tree of the mock tests. -/
theorem validate_synthesize_roundtrip_witness :
    validate testRoot (synthesize testRoot) = true :=
  validate_synthesize_roundtrip testRoot (by decide)

theorem drop_cons_facts (line : List Nat) (index v : Nat) (rest : List Nat)
    (h : line.drop index = v :: rest) :
    index < line.length ∧ line.getD index 0 = v ∧ line.drop (index + 1) = rest := by
  refine ⟨?_, ?_, ?_⟩
  · exact List.length_lt_of_drop_ne_nil (by rw [h]; simp)
  · have h0 : line.get? index = some v := by
      have h1 : (line.drop index).get? 0 = some v := by rw [h]; rfl
      rw [List.get?_eq_getElem?, List.getElem?_drop] at h1
      rw [List.get?_eq_getElem?]
      simpa using h1
    rw [List.get?_eq_getElem?] at h0
    simp [List.getD, h0]
  · have h2 := List.tail_drop line index
    rw [h] at h2
    exact h2.symm

theorem filterLoop_spec (line cs : List Nat) : ∀ (suffix : List Nat) (index : Nat),
    line.drop index = suffix →
    (∀ j, j < index → isSpaceByte (line.getD j 0) = true ∧ line.getD j 0 ≠ 10) →
    (filterLoop line cs suffix index = line ∨
     ∃ i, i < line.length ∧
       (∀ j, j < i → isSpaceByte (line.getD j 0) = true ∧ line.getD j 0 ≠ 10) ∧
       cs.contains (line.getD i 0) = true ∧
       i + 1 < line.length ∧ isSpaceByte (line.getD (i + 1) 0) = true ∧
       ((line.getD (i + 1) 0 = 10 ∧ filterLoop line cs suffix index = [10]) ∨
        (line.getD (i + 1) 0 ≠ 10 ∧
          filterLoop line cs suffix index = line.drop (i + 1)))) := by
  intro suffix
  induction suffix with
  | nil =>
    intro index h hpre
    left
    rw [filterLoop]
  | cons v rest ih =>
    intro index h hpre
    obtain ⟨hlt, hv, hdrop⟩ := drop_cons_facts line index v rest h
    cases rest with
    | nil =>
      by_cases hsp : (isSpaceByte v && (v != 10)) = true
      · left
        rw [filterLoop, if_pos hsp, filterLoop]
      · left
        rw [filterLoop, if_neg hsp, ite_self]
    | cons w rest2 =>
      by_cases hsp : (isSpaceByte v && (v != 10)) = true
      · have hstep : filterLoop line cs (v :: w :: rest2) index =
            filterLoop line cs (w :: rest2) (index + 1) := by
          rw [filterLoop, if_pos hsp]
        rw [hstep]
        rw [Bool.and_eq_true, bne_iff_ne] at hsp
        refine ih (index + 1) hdrop (fun j hj => ?_)
        rcases Nat.lt_succ_iff_lt_or_eq.mp hj with hj2 | hj2
        · exact hpre j hj2
        · subst hj2
          rw [hv]
          exact ⟨hsp.1, hsp.2⟩
      · by_cases hcs : cs.contains v = true
        · have hmem : v ∈ cs := by simpa using hcs
          obtain ⟨hlt2, hw2, _⟩ := drop_cons_facts line (index + 1) w rest2 hdrop
          by_cases hw : isSpaceByte w = true
          · have hstep : filterLoop line cs (v :: w :: rest2) index =
                (if w == 10 then [10] else line.drop (index + 1)) := by
              rw [filterLoop, if_neg hsp, if_neg (by simp [hmem]), if_pos hw]
            rw [hstep]
            right
            refine ⟨index, hlt, hpre, by rw [hv]; exact hcs, hlt2,
              by rw [hw2]; exact hw, ?_⟩
            by_cases hw10 : w = 10
            · left
              exact ⟨by rw [hw2]; exact hw10, by rw [if_pos (by simp [hw10])]⟩
            · right
              exact ⟨by rw [hw2]; exact hw10, by rw [if_neg (by simp [hw10])]⟩
          · left
            rw [filterLoop, if_neg hsp, if_neg (by simp [hmem]), if_neg hw]
        · left
          rw [filterLoop, if_neg hsp, if_pos (by simpa using hcs)]

/-- Claim C1 (amended): with an empty charset `filterSymbols` is the
identity; with a non-empty charset it scans over leading non-newline
whitespace and acts only when the first non-space byte is a charset marker
followed by a whitespace byte: if that byte is a newline the line collapses
to a lone newline, otherwise the leading whitespace and the marker are
dropped while the following space byte is kept (`line[index+1:]`); in every
other case — marker not in the charset, marker at end of line, marker
followed by a non-space — the line is returned unmodified, so at most the
leading whitespace plus one marker is ever removed. -/
theorem filterSymbols_characterization (line cs : List Nat) :
    (cs = [] → filterSymbols line cs = line) ∧
    (filterSymbols line cs = line ∨
     ∃ i, i < line.length ∧
       (∀ j, j < i → isSpaceByte (line.getD j 0) = true ∧ line.getD j 0 ≠ 10) ∧
       cs.contains (line.getD i 0) = true ∧
       i + 1 < line.length ∧ isSpaceByte (line.getD (i + 1) 0) = true ∧
       ((line.getD (i + 1) 0 = 10 ∧ filterSymbols line cs = [10]) ∨
        (line.getD (i + 1) 0 ≠ 10 ∧ filterSymbols line cs = line.drop (i + 1)))) := by
  constructor
  · intro h
    rw [filterSymbols, if_pos (by simp [h])]
  · by_cases hcs : cs.isEmpty
    · left
      rw [filterSymbols, if_pos hcs]
    · have hrw : filterSymbols line cs = filterLoop line cs line 0 := by
        rw [filterSymbols, if_neg hcs]
      rw [hrw]
      exact filterLoop_spec line cs line 0 (by simp)
        (fun j hj => absurd hj (Nat.not_lt_zero j))

/-- Claim C1 (witness): the empty-charset identity applied at a concrete
line. -/
theorem filterSymbols_characterization_witness :
    filterSymbols (bytes " q") [] = bytes " q" :=
  (filterSymbols_characterization (bytes " q") []).1 rfl

/-- Claim C1 (counterexample): the claim predicts that a charset marker is
dropped together with one following space, so `"* x"` would filter to
`"x"` and `"*x"` to `"x"`; the code instead keeps the following space
(`line[index+1:]` starts at the space) and leaves the line unmodified when
no space follows the marker. -/
theorem filterSymbols_counterexample :
    filterSymbols (bytes "* x") (bytes "*") = bytes " x" ∧
    bytes " x" ≠ bytes "x" ∧
    filterSymbols (bytes "*x") (bytes "*") = bytes "*x" ∧
    bytes "*x" ≠ bytes "x" :=
  ⟨by decide, by decide, by decide, by decide⟩

theorem endSCommentsLoop_grows (bgn esc data : List Nat) :
    ∀ (fuel pos : Nat) (acc : List (List Nat)) (res : List (List Nat) × Nat),
      endSCommentsLoop bgn esc data fuel pos acc = some res →
      acc.length < res.1.length := by
  intro fuel
  induction fuel with
  | zero =>
    intro pos acc res hres
    rw [endSCommentsLoop] at hres
    exact Option.noConfusion hres
  | succ fuel ih =>
    intro pos acc res hres
    rw [endSCommentsLoop] at hres
    split at hres
    · exact Option.noConfusion hres
    · split at hres
      · rw [Option.some_inj] at hres
        rw [← hres]
        simp
      · split at hres
        · have hrec := ih _ _ _ hres
          rw [List.length_append] at hrec
          simp only [List.length_singleton] at hrec
          omega
        · rw [Option.some_inj] at hres
          rw [← hres]
          simp

theorem endSComments_eq (b : Block) (l : Lexer) :
    endSComments b l =
      Option.map (fun r : List (List Nat) × Nat =>
        (r.1, true, (⟨l.data, if r.1.isEmpty then r.2 else r.2 - 1⟩ : Lexer)))
        (endSCommentsLoop b.Begin b.Escape l.data (l.data.length + 1) l.pos []) := by
  rw [endSComments]
  cases endSCommentsLoop b.Begin b.Escape l.data (l.data.length + 1) l.pos [] with
  | none => rfl
  | some r => rfl

/-- Claim C2 (amended): whenever the single-line-comment `EndFunc` returns
a result, it returns `true` with at least one accumulated line, including
when EOF is reached mid-line; each newline-terminated line whose newline is
not the buffer's final byte is appended through the line filter, adjacent
same-style comments merge into one block, and one byte — the byte just
before the final cursor — is given back to the lexer: the trailing newline
exactly when the continuation probe stopped at a non-whitespace byte (as in
the concrete merge run below, where the final cursor rests on the newline
at offset 11), but the last consumed byte otherwise — in particular, a
partial final line at EOF is appended raw, without the line filter, and the
byte given back is the line's last byte. -/
theorem endSComments_spec :
    (∀ b l lines ok lex2, endSComments b l = some (lines, ok, lex2) →
      ok = true ∧ lines ≠ []) ∧
    endSComments ⟨.kSComment, bytes "//", [], bytes "*"⟩ ⟨bytes "//* a\n//* b\nx", 2⟩ =
      some ([bytes " a\n", bytes " b\n"], true, ⟨bytes "//* a\n//* b\nx", 11⟩) ∧
    (bytes "//* a\n//* b\nx").getD 11 0 = 10 ∧
    endSComments ⟨.kSComment, bytes "//", [], bytes "*"⟩ ⟨bytes "//* a", 2⟩ =
      some ([bytes "* a"], true, ⟨bytes "//* a", 4⟩) := by
  refine ⟨?_, by decide, by decide, by decide⟩
  intro b l lines ok lex2 h
  rw [endSComments_eq] at h
  cases hlp : endSCommentsLoop b.Begin b.Escape l.data (l.data.length + 1) l.pos [] with
  | none =>
    rw [hlp] at h
    exact Option.noConfusion h
  | some r =>
    rw [hlp] at h
    have hg := endSCommentsLoop_grows b.Begin b.Escape l.data _ _ _ _ hlp
    rw [Option.map_some', Option.some_inj, Prod.mk.injEq, Prod.mk.injEq] at h
    refine ⟨h.2.1.symm, ?_⟩
    rw [← h.1]
    intro hemp
    rw [hemp] at hg
    simp at hg

/-- Claim C2 (witness): the always-true conjunct applied at the concrete
EOF-mid-line run. -/
theorem endSComments_spec_witness :
    (true = true ∧ ([bytes "* a"] : List (List Nat)) ≠ []) :=
  endSComments_spec.1 ⟨.kSComment, bytes "//", [], bytes "*"⟩ ⟨bytes "//* a", 2⟩
    [bytes "* a"] true ⟨bytes "//* a", 4⟩ (by decide)

/-- Claim C2 (counterexample): in the file `"//* a"` (no trailing newline)
with filter charset `"*"`, the block ends at EOF mid-line; the accumulated
line `"* a"` is appended raw even though the filter would have produced
`" a"` — so "applies the line filter to every accumulated line" fails —
and the byte given back to the lexer (offset 4, the letter `a`) is not a
newline. -/
theorem endSComments_counterexample :
    endSComments ⟨.kSComment, bytes "//", [], bytes "*"⟩ ⟨bytes "//* a", 2⟩ =
      some ([bytes "* a"], true, ⟨bytes "//* a", 4⟩) ∧
    filterSymbols (bytes "* a") (bytes "*") ≠ bytes "* a" ∧
    (bytes "//* a").getD 4 0 ≠ 10 :=
  ⟨by decide, by decide, by decide⟩

theorem endStringAux_result (esc endTk data : List Nat) :
    ∀ (fuel pos : Nat) (content : List (List Nat)) (p : Nat) (ok : Bool),
      endStringAux esc endTk data fuel pos = some (content, p, ok) →
      content = [] ∧ (ok = false → data.length ≤ p) := by
  intro fuel
  induction fuel with
  | zero =>
    intro pos content p ok h
    rw [endStringAux] at h
    exact Option.noConfusion h
  | succ fuel ih =>
    intro pos content p ok h
    rw [endStringAux] at h
    split_ifs at h with h1 h2 h3
    · rw [Option.some_inj, Prod.mk.injEq, Prod.mk.injEq] at h
      exact ⟨h.1.symm, fun _ => h.2.1 ▸ h1⟩
    · exact ih _ _ _ _ h
    · rw [Option.some_inj, Prod.mk.injEq, Prod.mk.injEq] at h
      refine ⟨h.1.symm, fun hok => ?_⟩
      rw [← h.2.2] at hok
      exact Bool.noConfusion hok
    · exact ih _ _ _ _ h

theorem endMCommentsAux_unterminated (endTk esc data : List Nat) :
    ∀ (fuel pos start : Nat) (lines : List (List Nat)),
      data.length - pos < fuel →
      (endMCommentsAux endTk esc data fuel pos start lines = some none ↔
        ∀ i, pos ≤ i → i < data.length → matchesAt data i endTk = false) := by
  intro fuel
  induction fuel with
  | zero =>
    intro pos start lines hfuel
    exact absurd hfuel (Nat.not_lt_zero _)
  | succ fuel ih =>
    intro pos start lines hfuel
    by_cases h1 : data.length ≤ pos
    · rw [endMCommentsAux, if_pos h1]
      constructor
      · intro _ i hpi hil
        exact absurd hil (by omega)
      · intro _
        rfl
    · by_cases h2 : matchesAt data pos endTk = true
      · rw [endMCommentsAux, if_neg h1, if_pos h2]
        constructor
        · intro hcon
          exact Option.noConfusion (Option.some_inj.mp hcon)
        · intro hall
          have hfalse := hall pos le_rfl (by omega)
          rw [h2] at hfalse
          exact Bool.noConfusion hfalse
      · have h2f : matchesAt data pos endTk = false := Bool.eq_false_iff.mpr h2
        by_cases h3 : (data.getD pos 0 == 10) = true
        · rw [endMCommentsAux, if_neg h1, if_neg h2, if_pos h3]
          rw [ih (pos + 1) (pos + 1) _ (by omega)]
          constructor
          · intro hall i hpi hil
            rcases Nat.eq_or_lt_of_le hpi with hpe | hlt2
            · rw [← hpe]
              exact h2f
            · exact hall i (by omega) hil
          · intro hall i hpi hil
            exact hall i (by omega) hil
        · rw [endMCommentsAux, if_neg h1, if_neg h2, if_neg h3]
          rw [ih (pos + 1) start lines (by omega)]
          constructor
          · intro hall i hpi hil
            rcases Nat.eq_or_lt_of_le hpi with hpe | hlt2
            · rw [← hpe]
              exact h2f
            · exact hall i (by omega) hil
          · intro hall i hpi hil
            exact hall i (by omega) hil

theorem endStringAux_unterminated (esc endTk data : List Nat) :
    ∀ (fuel pos : Nat), data.length - pos < fuel →
      (∀ i, pos ≤ i → matchesAt data i endTk = false) →
      ∃ p, data.length ≤ p ∧
        endStringAux esc endTk data fuel pos = some ([], p, false) := by
  intro fuel
  induction fuel with
  | zero =>
    intro pos hfuel _
    exact absurd hfuel (Nat.not_lt_zero _)
  | succ fuel ih =>
    intro pos hfuel hall
    by_cases h1 : data.length ≤ pos
    · exact ⟨pos, h1, by rw [endStringAux, if_pos h1]⟩
    · by_cases h2 : (!esc.isEmpty && matchesAt data pos esc) = true
      · obtain ⟨p, hp, hres⟩ := ih (pos + esc.length + 1) (by omega)
          (fun i hi => hall i (by omega))
        refine ⟨p, hp, ?_⟩
        rw [endStringAux, if_neg h1, if_pos h2]
        exact hres
      · have h3 : matchesAt data pos endTk = false := hall pos le_rfl
        obtain ⟨p, hp, hres⟩ := ih (pos + 1) (by omega) (fun i hi => hall i (by omega))
        refine ⟨p, hp, ?_⟩
        rw [endStringAux, if_neg h1, if_neg h2, if_neg (by simp [h3])]
        exact hres

/-- Claim C7: for a String rule, an Escape match (with a non-empty escape
token) consumes the escape token plus the following byte and continues
without ending the string; a found End token (not preempted by an escape
match) returns success; whenever `endString` returns, its content payload
is `nil`, and a `false` (unterminated) result occurs only with the cursor
at or past EOF; conversely, when the End token matches at no position from
the cursor on — so EOF is necessarily reached before the End token — the
scan (with its iteration budget covering the buffer) returns Go's
`(nil, false)` with the cursor at or past EOF: the block is abandoned and
nothing is emitted.  For a MultiLineComment rule, the scan returns Go's
`(nil, false)` — discarding every accumulated line, so nothing is
partially emitted — exactly when the End token matches at no position
between the cursor and EOF. -/
theorem unterminated_blocks_spec :
    (∀ esc endTk data fuel pos, esc ≠ [] → pos < data.length →
      matchesAt data pos esc = true →
      endStringAux esc endTk data (fuel + 1) pos =
        endStringAux esc endTk data fuel (pos + esc.length + 1)) ∧
    (∀ esc endTk data fuel pos, pos < data.length →
      (esc = [] ∨ matchesAt data pos esc = false) →
      matchesAt data pos endTk = true →
      endStringAux esc endTk data (fuel + 1) pos = some ([], pos + endTk.length, true)) ∧
    (∀ esc endTk data fuel pos content p ok,
      endStringAux esc endTk data fuel pos = some (content, p, ok) →
      content = [] ∧ (ok = false → data.length ≤ p)) ∧
    (∀ esc endTk data fuel pos, data.length - pos < fuel →
      (∀ i, pos ≤ i → matchesAt data i endTk = false) →
      ∃ p, data.length ≤ p ∧
        endStringAux esc endTk data fuel pos = some ([], p, false)) ∧
    (∀ endTk esc data fuel pos start lines, data.length - pos < fuel →
      (endMCommentsAux endTk esc data fuel pos start lines = some none ↔
        ∀ i, pos ≤ i → i < data.length → matchesAt data i endTk = false)) := by
  refine ⟨?_, ?_, fun esc endTk data => endStringAux_result esc endTk data,
    fun esc endTk data => endStringAux_unterminated esc endTk data,
    fun endTk esc data => endMCommentsAux_unterminated endTk esc data⟩
  · intro esc endTk data fuel pos hesc hpos hm
    rw [endStringAux, if_neg (by omega), if_pos ?hc]
    case hc =>
      rw [Bool.and_eq_true, hm]
      refine ⟨?_, rfl⟩
      rw [Bool.not_eq_true']
      exact List.isEmpty_eq_false_iff_exists_mem.mpr
        (by cases esc with
          | nil => exact absurd rfl hesc
          | cons a t => exact ⟨a, List.mem_cons_self a t⟩)
  · intro esc endTk data fuel pos hpos hesc hm
    rw [endStringAux, if_neg (by omega), if_neg ?hc, if_pos hm]
    case hc =>
      rcases hesc with hesc | hesc
      · simp [hesc]
      · simp [hesc]

/-- Claim C7 witness: the End-token success conjunct applied at a concrete
one-byte string body. -/
theorem unterminated_blocks_spec_witness :
    endStringAux [] (bytes "\"") (bytes "x\"") 6 1 = some ([], 2, true) :=
  unterminated_blocks_spec.2.1 [] (bytes "\"") (bytes "x\"") 5 1 (by decide)
    (Or.inl rfl) (by decide)
